import Mathlib

/-!
# Verification of the SeasonRecap subtitle / job-pipeline core

Shallow embedding of the subtitle utilities (`subtitleUtils.ts`,
`srtParser.ts`), the Azure speech text chunker and the job progress
computation of the SeasonRecap repository, together with proofs of the
specification claims about them.

Times (JS `number` values holding seconds) are modelled as rationals,
strings as `List Char`, and JS `Map.get(...) ?? []` as a total function
with default `[]`.
-/

namespace SeasonRecap

/-- `SubtitleEntry` from `subtitles/types.ts`. -/
structure SubtitleEntry where
  episodeId : String
  index : Int
  startTime : ℚ
  endTime : ℚ
  text : String
  deriving Repr, DecidableEq

/-- `ClipDefinition` from `subtitleUtils.ts`. -/
structure ClipDefinition where
  episodeId : String
  videoPath : String
  startTime : ℚ
  endTime : ℚ
  order : Int
  deriving Repr, DecidableEq

/-- `RemappedSubtitle` from `subtitleUtils.ts`. -/
structure RemappedSubtitle where
  index : Nat
  startTime : ℚ
  endTime : ℚ
  text : String
  originalEpisodeId : String
  originalStartTime : ℚ
  deriving Repr, DecidableEq

/-- The record pushed by the inner loop of `remapSubtitlesToClips` for one
selected entry: new times are the entry's times relative to the clip start,
shifted by the running output offset. -/
def emitOne (clip : ClipDefinition) (offset : ℚ) (e : SubtitleEntry) (i : Nat) :
    RemappedSubtitle :=
  { index := i
    startTime := offset + (e.startTime - clip.startTime)
    endTime := offset + (e.endTime - clip.startTime)
    text := e.text
    originalEpisodeId := clip.episodeId
    originalStartTime := e.startTime }

/-- The inner `for (const subtitle of clipSubtitles)` loop of
`remapSubtitlesToClips`: emits one record per selected entry, incrementing
the global index. -/
def emitClip (clip : ClipDefinition) (offset : ℚ) :
    List SubtitleEntry → Nat → List RemappedSubtitle
  | [], _ => []
  | e :: rest, i => emitOne clip offset e i :: emitClip clip offset rest (i + 1)

/-- The containment filter of `remapSubtitlesToClips`:
`entry.startTime >= clip.startTime && entry.endTime <= clip.endTime`. -/
def selectedFor (subs : String → List SubtitleEntry) (clip : ClipDefinition) :
    List SubtitleEntry :=
  (subs clip.episodeId).filter fun e =>
    decide (clip.startTime ≤ e.startTime) && decide (e.endTime ≤ clip.endTime)

/-- The outer `for (const clip of clips)` loop of `remapSubtitlesToClips`,
threading the running `currentOffset` and the global `index`. -/
def remapLoop (subs : String → List SubtitleEntry) :
    List ClipDefinition → ℚ → Nat → List RemappedSubtitle
  | [], _, _ => []
  | clip :: rest, currentOffset, index =>
    emitClip clip currentOffset (selectedFor subs clip) index ++
      remapLoop subs rest (currentOffset + (clip.endTime - clip.startTime))
        (index + (selectedFor subs clip).length)

/-- `remapSubtitlesToClips` from `subtitleUtils.ts` (lines 113-151):
`currentOffset` starts at 0 and the global index starts at 1. -/
def remapSubtitlesToClips (clips : List ClipDefinition)
    (subs : String → List SubtitleEntry) : List RemappedSubtitle :=
  remapLoop subs clips 0 1

/-- `calculateTotalDuration` from `subtitleUtils.ts` (lines 224-226):
`clips.reduce((sum, clip) => sum + (clip.endTime - clip.startTime), 0)`. -/
def calculateTotalDuration (clips : List ClipDefinition) : ℚ :=
  clips.foldl (fun sum clip => sum + (clip.endTime - clip.startTime)) 0

/-- The running `currentOffset` of `remapSubtitlesToClips` after all clips
have been processed (the loop updates
`currentOffset += clip.endTime - clip.startTime` once per clip). -/
def remapFinalOffset : List ClipDefinition → ℚ → ℚ
  | [], currentOffset => currentOffset
  | clip :: rest, currentOffset =>
    remapFinalOffset rest (currentOffset + (clip.endTime - clip.startTime))

/-- Duration `clip.endTime - clip.startTime` of one clip. -/
def clipDur (c : ClipDefinition) : ℚ := c.endTime - c.startTime

lemma remapFinalOffset_eq (clips : List ClipDefinition) :
    ∀ o : ℚ, remapFinalOffset clips o = o + (clips.map clipDur).sum := by
  induction clips with
  | nil => intro o; simp [remapFinalOffset]
  | cons c rest ih =>
    intro o
    simp only [remapFinalOffset, List.map_cons, List.sum_cons, ih, clipDur]
    ring

lemma calculateTotalDuration_eq (clips : List ClipDefinition) :
    ∀ a : ℚ, clips.foldl (fun sum clip => sum + (clip.endTime - clip.startTime)) a
      = a + (clips.map clipDur).sum := by
  induction clips with
  | nil => intro a; simp
  | cons c rest ih =>
    intro a
    simp only [List.foldl_cons, List.map_cons, List.sum_cons, ih, clipDur]
    ring

/-- C3: for every list of clips, the final running `outputOffset` of
`remapSubtitlesToClips` and the value of `calculateTotalDuration` both equal
`sum(clip.endTime - clip.startTime)` over all clips, exactly. -/
theorem remap_duration_conservation (clips : List ClipDefinition) :
    remapFinalOffset clips 0 = (clips.map clipDur).sum ∧
    calculateTotalDuration clips = (clips.map clipDur).sum := by
  constructor
  · simpa using remapFinalOffset_eq clips 0
  · simpa [calculateTotalDuration] using calculateTotalDuration_eq clips 0

/-- Modelled from the spec's words for the remap claim: the `outputOffset` in
effect for clip number `k` is the sum of the durations of all previously
processed clips. -/
def prevOffset (clips : List ClipDefinition) (k : Nat) : ℚ :=
  ((clips.take k).map clipDur).sum

/-- Modelled from the spec's words: for each clip (in order) the entries
fully contained in `[clip.startTime, clip.endTime]`, each tagged with the
clip and with the output offset of that clip. -/
def specTriples (clips : List ClipDefinition) (subs : String → List SubtitleEntry) :
    List (ℚ × ClipDefinition × SubtitleEntry) :=
  (List.range clips.length).flatMap fun k =>
    match clips.get? k with
    | some clip => (selectedFor subs clip).map fun e => (prevOffset clips k, clip, e)
    | none => []

/-- Modelled from the spec's words: emit one `RemappedSubtitle` per selected
entry with `newStart = outputOffset + (entry.startTime - clip.startTime)`,
`newEnd = outputOffset + (entry.endTime - clip.startTime)` and a sequential
global index. -/
def withIndicesFrom : Nat → List (ℚ × ClipDefinition × SubtitleEntry) →
    List RemappedSubtitle
  | _, [] => []
  | i, (o, clip, e) :: rest =>
    { index := i
      startTime := o + (e.startTime - clip.startTime)
      endTime := o + (e.endTime - clip.startTime)
      text := e.text
      originalEpisodeId := clip.episodeId
      originalStartTime := e.startTime } :: withIndicesFrom (i + 1) rest

/-- Modelled from the spec's words: the full remap output, with the global
index starting at 1 across the whole job. -/
def remapSpec (clips : List ClipDefinition) (subs : String → List SubtitleEntry) :
    List RemappedSubtitle :=
  withIndicesFrom 1 (specTriples clips subs)

/-- Adding a constant to the offset component of every triple. -/
def shiftTriples (d : ℚ) (l : List (ℚ × ClipDefinition × SubtitleEntry)) :
    List (ℚ × ClipDefinition × SubtitleEntry) :=
  l.map fun t => (d + t.1, t.2.1, t.2.2)

lemma withIndicesFrom_append (l₁ l₂ : List (ℚ × ClipDefinition × SubtitleEntry)) :
    ∀ i, withIndicesFrom i (l₁ ++ l₂)
      = withIndicesFrom i l₁ ++ withIndicesFrom (i + l₁.length) l₂ := by
  induction l₁ with
  | nil => intro i; simp [withIndicesFrom]
  | cons t rest ih =>
    intro i
    obtain ⟨o, clip, e⟩ := t
    simp only [List.cons_append, withIndicesFrom, List.length_cons, List.append_eq]
    rw [ih (i + 1)]
    rw [show i + (rest.length + 1) = i + 1 + rest.length by omega]

lemma emitClip_eq_withIndicesFrom (clip : ClipDefinition) (o : ℚ)
    (l : List SubtitleEntry) :
    ∀ i, emitClip clip o l i = withIndicesFrom i (l.map fun e => (o, clip, e)) := by
  induction l with
  | nil => intro i; simp [emitClip, withIndicesFrom]
  | cons e rest ih =>
    intro i
    simp only [emitClip, List.map_cons, withIndicesFrom, ih]
    rfl

lemma shiftTriples_shiftTriples (d₁ d₂ : ℚ)
    (l : List (ℚ × ClipDefinition × SubtitleEntry)) :
    shiftTriples d₁ (shiftTriples d₂ l) = shiftTriples (d₁ + d₂) l := by
  induction l with
  | nil => rfl
  | cons t rest ih =>
    simp only [shiftTriples, List.map_cons] at *
    rw [ih]
    simp [add_assoc]

lemma shiftTriples_zero (l : List (ℚ × ClipDefinition × SubtitleEntry)) :
    shiftTriples 0 l = l := by
  induction l with
  | nil => rfl
  | cons t rest ih =>
    simp only [shiftTriples, List.map_cons] at *
    rw [ih]
    simp

lemma shiftTriples_append (d : ℚ) (l₁ l₂ : List (ℚ × ClipDefinition × SubtitleEntry)) :
    shiftTriples d (l₁ ++ l₂) = shiftTriples d l₁ ++ shiftTriples d l₂ := by
  simp [shiftTriples]

lemma shiftTriples_map (d : ℚ) (o : ℚ) (clip : ClipDefinition)
    (l : List SubtitleEntry) :
    shiftTriples d (l.map fun e => (o, clip, e)) = l.map fun e => (d + o, clip, e) := by
  simp [shiftTriples]

lemma prevOffset_cons (c : ClipDefinition) (clips : List ClipDefinition) (k : Nat) :
    prevOffset (c :: clips) (k + 1) = clipDur c + prevOffset clips k := by
  simp [prevOffset, List.take_succ_cons]

lemma flatMap_congr_of_mem {α β : Type} (l : List α) (f g : α → List β)
    (h : ∀ a ∈ l, f a = g a) : l.flatMap f = l.flatMap g := by
  induction l with
  | nil => rfl
  | cons a rest ih =>
    rw [List.flatMap_cons, List.flatMap_cons, h a (by simp),
      ih fun a ha => h a (by simp [ha])]

lemma specTriples_cons (c : ClipDefinition) (clips : List ClipDefinition)
    (subs : String → List SubtitleEntry) :
    specTriples (c :: clips) subs
      = ((selectedFor subs c).map fun e => ((0 : ℚ), c, e))
        ++ shiftTriples (clipDur c) (specTriples clips subs) := by
  unfold specTriples
  rw [List.length_cons, List.range_succ_eq_map, List.flatMap_cons]
  have h1 : (match (c :: clips).get? 0 with
      | some clip => (selectedFor subs clip).map fun e => (prevOffset (c :: clips) 0, clip, e)
      | none => ([] : List (ℚ × ClipDefinition × SubtitleEntry)))
      = (selectedFor subs c).map fun e => ((0 : ℚ), c, e) := by
    simp [prevOffset]
  have h2 : ((List.map Nat.succ (List.range clips.length)).flatMap fun k =>
      match (c :: clips).get? k with
      | some clip => (selectedFor subs clip).map fun e => (prevOffset (c :: clips) k, clip, e)
      | none => [])
      = shiftTriples (clipDur c) ((List.range clips.length).flatMap fun k =>
        match clips.get? k with
        | some clip => (selectedFor subs clip).map fun e => (prevOffset clips k, clip, e)
        | none => []) := by
    rw [List.flatMap_map]
    unfold shiftTriples
    rw [List.map_flatMap]
    apply flatMap_congr_of_mem
    intro k _
    simp only [List.get?_cons_succ]
    cases clips.get? k with
    | none => simp
    | some clip => simp [prevOffset_cons, List.map_map, Function.comp]
  rw [h1, h2]

lemma remapLoop_eq_spec (subs : String → List SubtitleEntry) :
    ∀ (clips : List ClipDefinition) (o : ℚ) (i : Nat),
      remapLoop subs clips o i = withIndicesFrom i (shiftTriples o (specTriples clips subs)) := by
  intro clips
  induction clips with
  | nil => intro o i; simp [remapLoop, specTriples, shiftTriples, withIndicesFrom]
  | cons c rest ih =>
    intro o i
    rw [remapLoop, specTriples_cons, shiftTriples_append, shiftTriples_map,
      shiftTriples_shiftTriples, withIndicesFrom_append, add_zero,
      emitClip_eq_withIndicesFrom, ih, List.length_map]
    simp [clipDur]

/-- C1: `remapSubtitlesToClips` computes exactly the spec-side remap: from
each clip exactly the entries with `entry.startTime ≥ clip.startTime` and
`entry.endTime ≤ clip.endTime` (an entry violating either bound never
appears for that clip), emitted with
`newStart = outputOffset + (entry.startTime - clip.startTime)`,
`newEnd = outputOffset + (entry.endTime - clip.startTime)` and a sequential
global index starting at 1 across the whole job, where `outputOffset` is the
sum of the durations of all previously processed clips. -/
theorem remap_refines_spec (clips : List ClipDefinition)
    (subs : String → List SubtitleEntry) :
    remapSubtitlesToClips clips subs = remapSpec clips subs := by
  rw [remapSubtitlesToClips, remapSpec, remapLoop_eq_spec, shiftTriples_zero]

lemma mem_emitClip (clip : ClipDefinition) (o : ℚ) :
    ∀ (l : List SubtitleEntry) (i : Nat) (r : RemappedSubtitle),
      r ∈ emitClip clip o l i → ∃ e ∈ l, ∃ j, r = emitOne clip o e j := by
  intro l
  induction l with
  | nil => intro i r hr; simp [emitClip] at hr
  | cons e rest ih =>
    intro i r hr
    rcases List.mem_cons.mp hr with h | h
    · exact ⟨e, by simp, i, h⟩
    · obtain ⟨e', he', j, hj⟩ := ih (i + 1) r h
      exact ⟨e', by simp [he'], j, hj⟩

lemma emitOne_mem_emitClip (clip : ClipDefinition) (o : ℚ) :
    ∀ (l : List SubtitleEntry) (i : Nat) (e : SubtitleEntry),
      e ∈ l → ∃ j, emitOne clip o e j ∈ emitClip clip o l i := by
  intro l
  induction l with
  | nil => intro i e he; simp at he
  | cons e' rest ih =>
    intro i e he
    rcases List.mem_cons.mp he with h | h
    · exact ⟨i, by rw [h]; simp [emitClip]⟩
    · obtain ⟨j, hj⟩ := ih (i + 1) e h
      exact ⟨j, by simp [emitClip, hj]⟩

lemma selectedFor_mem {subs : String → List SubtitleEntry} {clip : ClipDefinition}
    {e : SubtitleEntry} (he : e ∈ selectedFor subs clip) :
    e ∈ subs clip.episodeId ∧ clip.startTime ≤ e.startTime ∧ e.endTime ≤ clip.endTime := by
  have h := List.mem_filter.mp he
  refine ⟨h.1, ?_, ?_⟩
  · have := h.2
    simp only [Bool.and_eq_true, decide_eq_true_eq] at this
    exact this.1
  · have := h.2
    simp only [Bool.and_eq_true, decide_eq_true_eq] at this
    exact this.2

/-- C9: every entry selected for a clip is emitted with its duration
preserved exactly (`newEnd - newStart = entry.endTime - entry.startTime`)
and with its provenance recorded: `originalEpisodeId` is the clip's
`episodeId` and `originalStartTime` is the entry's original `startTime`. -/
theorem remap_preserves_duration_and_provenance
    (clips : List ClipDefinition) (subs : String → List SubtitleEntry)
    (k : Nat) (clip : ClipDefinition) (hk : clips.get? k = some clip) :
    ∀ e ∈ selectedFor subs clip, ∃ r ∈ remapSubtitlesToClips clips subs,
      r.endTime - r.startTime = e.endTime - e.startTime ∧
      r.originalEpisodeId = clip.episodeId ∧
      r.originalStartTime = e.startTime := by
  have main : ∀ (cs : List ClipDefinition) (o : ℚ) (i k : Nat),
      cs.get? k = some clip → ∀ e ∈ selectedFor subs clip,
      ∃ r ∈ remapLoop subs cs o i,
        r.endTime - r.startTime = e.endTime - e.startTime ∧
        r.originalEpisodeId = clip.episodeId ∧
        r.originalStartTime = e.startTime := by
    intro cs
    induction cs with
    | nil => intro o i k hk' e he; simp at hk'
    | cons c rest ih =>
      intro o i k hk' e he
      cases k with
      | zero =>
        simp only [List.get?_cons_zero, Option.some.injEq] at hk'
        subst hk'
        obtain ⟨j, hj⟩ := emitOne_mem_emitClip c o (selectedFor subs c) i e he
        refine ⟨emitOne c o e j, ?_, ?_, rfl, rfl⟩
        · rw [remapLoop]
          exact List.mem_append_left _ hj
        · simp only [emitOne]
          ring
      | succ k' =>
        simp only [List.get?_cons_succ] at hk'
        obtain ⟨r, hr, hprop⟩ := ih (o + (c.endTime - c.startTime))
          (i + (selectedFor subs c).length) k' hk' e he
        refine ⟨r, ?_, hprop⟩
        rw [remapLoop]
        exact List.mem_append_right _ hr
  exact main clips 0 1 k hk

/-- Number of entries emitted for the clips before clip number `k` (the
value of the global `index` counter, minus its start value, when clip `k`
begins processing). -/
def prefixSelectedCount (clips : List ClipDefinition)
    (subs : String → List SubtitleEntry) (k : Nat) : Nat :=
  ((List.range k).map fun j =>
    match clips.get? j with
    | some c => (selectedFor subs c).length
    | none => 0).sum

/-- The records `remapSubtitlesToClips` pushes while processing clip number
`k`: its selected entries, emitted at that clip's `outputOffset`
(`prevOffset`) with the global index the loop has reached. -/
def clipEmit (clips : List ClipDefinition) (subs : String → List SubtitleEntry)
    (k : Nat) : List RemappedSubtitle :=
  match clips.get? k with
  | some clip =>
    emitClip clip (prevOffset clips k) (selectedFor subs clip)
      (1 + prefixSelectedCount clips subs k)
  | none => []

lemma prefixSelectedCount_cons (c : ClipDefinition) (clips : List ClipDefinition)
    (subs : String → List SubtitleEntry) (k : Nat) :
    prefixSelectedCount (c :: clips) subs (k + 1)
      = (selectedFor subs c).length + prefixSelectedCount clips subs k := by
  unfold prefixSelectedCount
  rw [List.range_succ_eq_map, List.map_cons, List.sum_cons, List.map_map]
  rfl

lemma remapLoop_eq_flatMap (subs : String → List SubtitleEntry) :
    ∀ (clips : List ClipDefinition) (o : ℚ) (i : Nat),
      remapLoop subs clips o i
        = (List.range clips.length).flatMap fun k =>
            match clips.get? k with
            | some clip => emitClip clip (o + prevOffset clips k)
                (selectedFor subs clip) (i + prefixSelectedCount clips subs k)
            | none => [] := by
  intro clips
  induction clips with
  | nil => intro o i; simp [remapLoop]
  | cons c rest ih =>
    intro o i
    rw [remapLoop, ih]
    rw [List.length_cons, List.range_succ_eq_map, List.flatMap_cons, List.flatMap_map]
    congr 1
    · show emitClip c o (selectedFor subs c) i
        = emitClip c (o + 0) (selectedFor subs c) (i + 0)
      rw [add_zero]
      rfl
    · apply flatMap_congr_of_mem
      intro k _
      show (match rest.get? k with
        | some clip => emitClip clip ((o + (c.endTime - c.startTime)) + prevOffset rest k)
            (selectedFor subs clip)
            ((i + (selectedFor subs c).length) + prefixSelectedCount rest subs k)
        | none => [])
        = (match (c :: rest).get? (k + 1) with
        | some clip => emitClip clip (o + prevOffset (c :: rest) (k + 1))
            (selectedFor subs clip) (i + prefixSelectedCount (c :: rest) subs (k + 1))
        | none => [])
      rw [List.get?_cons_succ, prevOffset_cons, prefixSelectedCount_cons]
      cases rest.get? k with
      | none => rfl
      | some clip =>
        simp only [clipDur, add_assoc]

lemma remap_eq_flatMap_clipEmit (clips : List ClipDefinition)
    (subs : String → List SubtitleEntry) :
    remapSubtitlesToClips clips subs
      = (List.range clips.length).flatMap (clipEmit clips subs) := by
  rw [remapSubtitlesToClips, remapLoop_eq_flatMap]
  apply flatMap_congr_of_mem
  intro k _
  rw [clipEmit]
  cases clips.get? k with
  | none => rfl
  | some clip => simp only [zero_add]

lemma clipEmit_endTime_bound (clips : List ClipDefinition)
    (subs : String → List SubtitleEntry) (k : Nat) (clip : ClipDefinition)
    (hk : clips.get? k = some clip) :
    ∀ r ∈ clipEmit clips subs k, r.endTime ≤ prevOffset clips k + clipDur clip := by
  intro r hr
  have hce : clipEmit clips subs k
      = emitClip clip (prevOffset clips k) (selectedFor subs clip)
        (1 + prefixSelectedCount clips subs k) := by
    rw [clipEmit, hk]
  rw [hce] at hr
  obtain ⟨e, he, j, hj⟩ := mem_emitClip clip (prevOffset clips k) _ _ r hr
  have hsel := (selectedFor_mem he).2.2
  rw [hj]
  simp only [emitOne, clipDur]
  linarith

lemma emitClip_pairwise (clip : ClipDefinition) (o : ℚ) :
    ∀ (l : List SubtitleEntry) (i : Nat),
      l.Pairwise (fun a b => a.startTime ≤ b.startTime) →
      (emitClip clip o l i).Pairwise (fun a b => a.startTime ≤ b.startTime) := by
  intro l
  induction l with
  | nil => intro i _; simp [emitClip]
  | cons e rest ih =>
    intro i hp
    rw [List.pairwise_cons] at hp
    rw [emitClip, List.pairwise_cons]
    refine ⟨?_, ih (i + 1) hp.2⟩
    intro r hr
    obtain ⟨e', he', j, hj⟩ := mem_emitClip clip o rest (i + 1) r hr
    rw [hj]
    simp only [emitOne]
    have := hp.1 e' he'
    linarith

lemma remapLoop_mono (subs : String → List SubtitleEntry)
    (hwf : ∀ id, ∀ e ∈ subs id, e.startTime ≤ e.endTime)
    (hsorted : ∀ id, (subs id).Pairwise fun a b => a.startTime ≤ b.startTime) :
    ∀ (clips : List ClipDefinition), (∀ c ∈ clips, c.startTime ≤ c.endTime) →
      ∀ (o : ℚ) (i : Nat),
      (remapLoop subs clips o i).Chain' (fun a b => a.startTime ≤ b.startTime) ∧
      ∀ r ∈ remapLoop subs clips o i, o ≤ r.startTime := by
  intro clips
  induction clips with
  | nil => intro _ o i; simp [remapLoop]
  | cons c rest ih =>
    intro hclip o i
    have hrest := ih (fun c' hc' => hclip c' (by simp [hc'])) (o + (c.endTime - c.startTime))
      (i + (selectedFor subs c).length)
    have hdur : 0 ≤ c.endTime - c.startTime := by
      have := hclip c (by simp)
      linarith
    have hemit_upper : ∀ r ∈ emitClip c o (selectedFor subs c) i,
        r.startTime ≤ o + (c.endTime - c.startTime) := by
      intro r hr
      obtain ⟨e, he, j, hj⟩ := mem_emitClip c o _ i r hr
      obtain ⟨hmem, hlo, hhi⟩ := selectedFor_mem he
      have hew := hwf c.episodeId e hmem
      rw [hj]
      simp only [emitOne]
      linarith
    have hemit_lower : ∀ r ∈ emitClip c o (selectedFor subs c) i, o ≤ r.startTime := by
      intro r hr
      obtain ⟨e, he, j, hj⟩ := mem_emitClip c o _ i r hr
      obtain ⟨hmem, hlo, hhi⟩ := selectedFor_mem he
      rw [hj]
      simp only [emitOne]
      linarith
    constructor
    · rw [remapLoop, List.chain'_append]
      refine ⟨?_, hrest.1, ?_⟩
      · exact (emitClip_pairwise c o (selectedFor subs c) i
          (List.Pairwise.sublist (List.filter_sublist _) (hsorted c.episodeId))).chain'
      · intro x hx y hy
        have hxm := List.mem_of_mem_getLast? hx
        have hym := List.mem_of_mem_head? hy
        have h1 := hemit_upper x hxm
        have h2 := hrest.2 y hym
        linarith
    · intro r hr
      rw [remapLoop] at hr
      rcases List.mem_append.mp hr with h | h
      · exact hemit_lower r h
      · have := hrest.2 r h
        linarith

/-- C2 (amended): when every clip and every subtitle entry is well-formed
(`startTime ≤ endTime`) and each episode's entry list is sorted by
`startTime`, the output of `remapSubtitlesToClips` has non-decreasing
`startTime`; and — unconditionally, for any inputs — the output is the
concatenation over `k` of the records emitted while processing clip `k`
(`clipEmit`), and every record emitted for clip `k` has `endTime` at most
that clip's own `outputOffset` (`prevOffset clips k`) plus that clip's
duration. -/
theorem remap_monotone_and_bounded
    (clips : List ClipDefinition) (subs : String → List SubtitleEntry) :
    ((∀ c ∈ clips, c.startTime ≤ c.endTime) →
      (∀ id, ∀ e ∈ subs id, e.startTime ≤ e.endTime) →
      (∀ id, (subs id).Pairwise fun a b => a.startTime ≤ b.startTime) →
      (remapSubtitlesToClips clips subs).Chain' fun a b => a.startTime ≤ b.startTime) ∧
    remapSubtitlesToClips clips subs
      = (List.range clips.length).flatMap (clipEmit clips subs) ∧
    ∀ k clip, clips.get? k = some clip →
      ∀ r ∈ clipEmit clips subs k, r.endTime ≤ prevOffset clips k + clipDur clip :=
  ⟨fun hclip hwf hsorted => (remapLoop_mono subs hwf hsorted clips hclip 0 1).1,
    remap_eq_flatMap_clipEmit clips subs,
    fun k clip hk => clipEmit_endTime_bound clips subs k clip hk⟩

/-- C2, claim as stated, is false: for an unsorted per-episode subtitle map
the remapped output's `startTime` values are not non-decreasing. -/
theorem remap_monotone_counterexample :
    ¬ (remapSubtitlesToClips
        [{ episodeId := "E", videoPath := "v", startTime := 0, endTime := 10, order := 1 }]
        (fun _ => [{ episodeId := "E", index := 1, startTime := 5, endTime := 6, text := "a" },
                   { episodeId := "E", index := 2, startTime := 1, endTime := 2, text := "b" }])).Chain'
      (fun a b => a.startTime ≤ b.startTime) := by
  intro h
  have : (remapSubtitlesToClips
      [{ episodeId := "E", videoPath := "v", startTime := 0, endTime := 10, order := 1 }]
      (fun _ => [{ episodeId := "E", index := 1, startTime := 5, endTime := 6, text := "a" },
                 { episodeId := "E", index := 2, startTime := 1, endTime := 2, text := "b" }]))
      = [{ index := 1, startTime := 5, endTime := 6, text := "a",
           originalEpisodeId := "E", originalStartTime := 5 },
         { index := 2, startTime := 1, endTime := 2, text := "b",
           originalEpisodeId := "E", originalStartTime := 1 }] := by
    norm_num [remapSubtitlesToClips, remapLoop, selectedFor, List.filter, emitClip, emitOne]
  rw [this] at h
  rcases h with _ | ⟨hle, _⟩
  norm_num at hle

/-- Witness instantiating `remap_preserves_duration_and_provenance` at a
concrete clip, subtitle map and selected entry. -/
theorem remap_preserves_duration_and_provenance_witness :
    ∃ r ∈ remapSubtitlesToClips
        [{ episodeId := "E", videoPath := "v", startTime := 0, endTime := 10, order := 1 }]
        (fun _ => [{ episodeId := "E", index := 1, startTime := 2, endTime := 3, text := "a" }]),
      r.endTime - r.startTime = (3 : ℚ) - 2 ∧
      r.originalEpisodeId = "E" ∧ r.originalStartTime = 2 :=
  remap_preserves_duration_and_provenance
    [{ episodeId := "E", videoPath := "v", startTime := 0, endTime := 10, order := 1 }]
    (fun _ => [{ episodeId := "E", index := 1, startTime := 2, endTime := 3, text := "a" }])
    0 { episodeId := "E", videoPath := "v", startTime := 0, endTime := 10, order := 1 } rfl
    { episodeId := "E", index := 1, startTime := 2, endTime := 3, text := "a" } (by decide)

/-- Witness instantiating `remap_monotone_and_bounded` at concrete,
well-formed, sorted inputs. -/
theorem remap_monotone_and_bounded_witness :
    (remapSubtitlesToClips
        [{ episodeId := "E", videoPath := "v", startTime := 0, endTime := 10, order := 1 }]
        (fun _ => [{ episodeId := "E", index := 1, startTime := 1, endTime := 2, text := "a" },
                   { episodeId := "E", index := 2, startTime := 5, endTime := 6, text := "b" }])).Chain'
      (fun a b => a.startTime ≤ b.startTime) ∧
    remapSubtitlesToClips
        [{ episodeId := "E", videoPath := "v", startTime := 0, endTime := 10, order := 1 }]
        (fun _ => [{ episodeId := "E", index := 1, startTime := 1, endTime := 2, text := "a" },
                   { episodeId := "E", index := 2, startTime := 5, endTime := 6, text := "b" }])
      = (List.range ([({ episodeId := "E", videoPath := "v", startTime := 0, endTime := 10, order := 1 } : ClipDefinition)]).length).flatMap
          (clipEmit
            [{ episodeId := "E", videoPath := "v", startTime := 0, endTime := 10, order := 1 }]
            (fun _ => [{ episodeId := "E", index := 1, startTime := 1, endTime := 2, text := "a" },
                       { episodeId := "E", index := 2, startTime := 5, endTime := 6, text := "b" }])) :=
  ⟨(remap_monotone_and_bounded
      [{ episodeId := "E", videoPath := "v", startTime := 0, endTime := 10, order := 1 }]
      (fun _ => [{ episodeId := "E", index := 1, startTime := 1, endTime := 2, text := "a" },
                 { episodeId := "E", index := 2, startTime := 5, endTime := 6, text := "b" }])).1
    (by decide)
    (by
      intro x
      show ∀ e ∈ [({ episodeId := "E", index := 1, startTime := 1, endTime := 2, text := "a" } : SubtitleEntry),
        { episodeId := "E", index := 2, startTime := 5, endTime := 6, text := "b" }], e.startTime ≤ e.endTime
      decide)
    (by
      intro x
      show List.Pairwise (fun a b => a.startTime ≤ b.startTime)
        [({ episodeId := "E", index := 1, startTime := 1, endTime := 2, text := "a" } : SubtitleEntry),
         { episodeId := "E", index := 2, startTime := 5, endTime := 6, text := "b" }]
      decide),
    (remap_monotone_and_bounded
      [{ episodeId := "E", videoPath := "v", startTime := 0, endTime := 10, order := 1 }]
      (fun _ => [{ episodeId := "E", index := 1, startTime := 1, endTime := 2, text := "a" },
                 { episodeId := "E", index := 2, startTime := 5, endTime := 6, text := "b" }])).2.1⟩

/-! ## SRT timestamp codec (`srtParser.ts`) -/

/-- The characters matched by the JS regex class `\s` that can occur here. -/
def jsSpace (c : Char) : Bool :=
  c == ' ' || c == '\t' || c == '\n' || c == '\r' || c == '\x0b' || c == '\x0c'

/-- Decimal digit character for a value below 10. -/
def digitChar (n : Nat) : Char := Char.ofNat (48 + n)

/-- Decimal digits of a natural number, most significant first, prepended to
`acc` (the digit list a JS number prints as). -/
def natDigitsAux (n : Nat) (acc : List Char) : List Char :=
  if h : n < 10 then digitChar n :: acc
  else natDigitsAux (n / 10) (digitChar (n % 10) :: acc)
  termination_by n
  decreasing_by exact Nat.div_lt_self (by omega) (by omega)

/-- Decimal representation of a natural number (JS `Number.prototype.toString`
for a non-negative integer-valued number). -/
def natDigits (n : Nat) : List Char := natDigitsAux n []

/-- JS `Number.prototype.toString` for an integer-valued number. -/
def intToChars (i : Int) : List Char :=
  if i < 0 then '-' :: natDigits (-i).toNat else natDigits i.toNat

/-- Numeric value of a digit character. -/
def digitVal (c : Char) : Nat := c.toNat - 48

/-- Value of a decimal digit string. -/
def digitsToNat (l : List Char) : Nat := l.foldl (fun a c => 10 * a + digitVal c) 0

/-- JS `String.prototype.padStart(n, c)`. -/
def padStart (n : Nat) (c : Char) (l : List Char) : List Char :=
  List.replicate (n - l.length) c ++ l

/-- JS `String.prototype.padEnd(n, c)`. -/
def padEnd (n : Nat) (c : Char) (l : List Char) : List Char :=
  l ++ List.replicate (n - l.length) c

/-- JS `String.prototype.replace(a, b)` with one-character string arguments:
replaces only the first occurrence. -/
def replaceFirst (l : List Char) (a b : Char) : List Char :=
  match l with
  | [] => []
  | c :: rest => if c = a then b :: rest else c :: replaceFirst rest a b

/-- JS `String.prototype.split(sep)` with a one-character separator: keeps
empty segments, `"".split(sep) = [""]`. -/
def splitOnChar (sep : Char) : List Char → List (List Char)
  | [] => [[]]
  | c :: rest =>
    if c = sep then [] :: splitOnChar sep rest
    else
      match splitOnChar sep rest with
      | t :: ts => (c :: t) :: ts
      | [] => [[c]]

/-- JS `parseInt(s, 10)` restricted to the digit prefix after optional
whitespace and sign; `none` models `NaN`. -/
def jsParseDigits (l : List Char) : Option Nat :=
  let ds := l.takeWhile Char.isDigit
  if ds.isEmpty then none else some (digitsToNat ds)

/-- JS `parseInt(s, 10)`: skips leading whitespace, accepts an optional sign,
then parses the longest digit prefix; `none` models `NaN`. -/
def jsParseInt (l : List Char) : Option Int :=
  let l1 := l.dropWhile jsSpace
  if l1.head? = some '-' then (jsParseDigits l1.tail).map fun n => -(n : Int)
  else if l1.head? = some '+' then (jsParseDigits l1.tail).map fun n => (n : Int)
  else (jsParseDigits l1).map fun n => (n : Int)

/-- JS truncation toward zero, as used by the `%` operator. -/
def jsTrunc (q : ℚ) : Int := if q < 0 then ⌈q⌉ else ⌊q⌋

/-- JS `%` on numbers: `a - b * trunc(a / b)`. -/
def jsMod (a b : ℚ) : ℚ := a - b * jsTrunc (a / b)

/-- JS `Math.round`: half-up rounding, `⌊q + 1/2⌋`. -/
def jsRound (q : ℚ) : Int := ⌊q + 1 / 2⌋

/-- `secondsToSrtTime` from `srtParser.ts` (lines 31-43): formats seconds as
`HH:MM:SS,mmm` with `padStart` on every field and `Math.round` on the
milliseconds. -/
def secondsToSrtTime (seconds : ℚ) : List Char :=
  padStart 2 '0' (intToChars ⌊seconds / 3600⌋) ++
    ':' :: padStart 2 '0' (intToChars ⌊jsMod seconds 3600 / 60⌋) ++
    ':' :: padStart 2 '0' (intToChars ⌊jsMod seconds 60⌋) ++
    ',' :: padStart 3 '0' (intToChars (jsRound (jsMod seconds 1 * 1000)))

/-- `srtTimeToSeconds` from `srtParser.ts` (lines 8-24): replaces the first
`,` by `.`, splits on `:`, throws (`Except.error`) only when that split does
not yield exactly 3 parts, then converts with `parseInt`; a `NaN` result
(any unparseable component) is modelled as `Except.ok none`. -/
def srtTimeToSeconds (timestamp : List Char) : Except Unit (Option ℚ) :=
  let normalized := replaceFirst timestamp ',' '.'
  let parts := splitOnChar ':' normalized
  if parts.length ≠ 3 then .error () else
  let secondsParts := splitOnChar '.' (parts.getD 2 ['0'])
  .ok ((jsParseInt (parts.getD 0 ['0'])).bind fun h =>
    (jsParseInt (parts.getD 1 ['0'])).bind fun m =>
    (jsParseInt (secondsParts.getD 0 ['0'])).bind fun s =>
    (jsParseInt (padEnd 3 '0' (secondsParts.getD 1 ['0']))).map fun ms =>
      (h : ℚ) * 3600 + (m : ℚ) * 60 + (s : ℚ) + (ms : ℚ) / 1000)

lemma natDigitsAux_eq (n : Nat) :
    ∀ acc, natDigitsAux n acc = natDigits n ++ acc := by
  induction n using Nat.strong_induction_on with
  | _ n ih =>
    intro acc
    rw [natDigitsAux]
    by_cases h : n < 10
    · rw [dif_pos h]
      rw [natDigits, natDigitsAux, dif_pos h]
      rfl
    · rw [dif_neg h]
      have hlt : n / 10 < n := Nat.div_lt_self (by omega) (by omega)
      rw [ih (n / 10) hlt]
      have hr : natDigits n = natDigits (n / 10) ++ [digitChar (n % 10)] := by
        conv_lhs => rw [natDigits, natDigitsAux]
        rw [dif_neg h, ih (n / 10) hlt]
      rw [hr]
      simp

lemma digitChar_isDigit : ∀ n < 10, (digitChar n).isDigit = true := by decide

lemma digitVal_digitChar : ∀ n < 10, digitVal (digitChar n) = n := by decide

lemma natDigits_all_digits (n : Nat) : ∀ c ∈ natDigits n, c.isDigit = true := by
  induction n using Nat.strong_induction_on with
  | _ n ih =>
    intro c hc
    rw [natDigits, natDigitsAux] at hc
    by_cases h : n < 10
    · rw [dif_pos h] at hc
      rcases List.mem_singleton.mp hc with rfl
      exact digitChar_isDigit n h
    · rw [dif_neg h, natDigitsAux_eq] at hc
      rcases List.mem_append.mp hc with h' | h'
      · exact ih (n / 10) (Nat.div_lt_self (by omega) (by omega)) c h'
      · rcases List.mem_singleton.mp h' with rfl
        exact digitChar_isDigit (n % 10) (Nat.mod_lt n (by omega))

lemma natDigits_ne_nil (n : Nat) : natDigits n ≠ [] := by
  rw [natDigits, natDigitsAux]
  by_cases h : n < 10
  · rw [dif_pos h]; simp
  · rw [dif_neg h, natDigitsAux_eq]; simp

lemma foldl_digits (l : List Char) :
    ∀ a, l.foldl (fun a c => 10 * a + digitVal c) a
      = a * 10 ^ l.length + digitsToNat l := by
  induction l with
  | nil => intro a; simp [digitsToNat]
  | cons c rest ih =>
    intro a
    have hco : digitsToNat (c :: rest)
        = digitVal c * 10 ^ rest.length + digitsToNat rest := by
      rw [digitsToNat, List.foldl_cons, ih]
      simp
    rw [List.foldl_cons, ih, hco, List.length_cons]
    ring

lemma digitsToNat_append (l₁ l₂ : List Char) :
    digitsToNat (l₁ ++ l₂) = digitsToNat l₁ * 10 ^ l₂.length + digitsToNat l₂ := by
  rw [digitsToNat, List.foldl_append, foldl_digits]
  rfl

lemma digitsToNat_natDigits (n : Nat) : digitsToNat (natDigits n) = n := by
  induction n using Nat.strong_induction_on with
  | _ n ih =>
    rw [natDigits, natDigitsAux]
    by_cases h : n < 10
    · rw [dif_pos h]
      simp [digitsToNat, digitVal_digitChar n h]
    · rw [dif_neg h, natDigitsAux_eq, digitsToNat_append]
      rw [ih (n / 10) (Nat.div_lt_self (by omega) (by omega))]
      have : digitsToNat [digitChar (n % 10)] = n % 10 := by
        simp [digitsToNat, digitVal_digitChar (n % 10) (Nat.mod_lt n (by omega))]
      rw [this]
      simp [Nat.div_add_mod]
      omega

lemma digitsToNat_replicate_zero (k : Nat) :
    ∀ l, digitsToNat (List.replicate k '0' ++ l) = digitsToNat l := by
  induction k with
  | zero => intro l; simp
  | succ k ih =>
    intro l
    rw [List.replicate_succ, List.cons_append, digitsToNat, List.foldl_cons]
    have : (10 * 0 + digitVal '0') = 0 := by decide
    rw [this]
    exact ih l

lemma digitsToNat_padStart (n : Nat) (l : List Char) :
    digitsToNat (padStart n '0' l) = digitsToNat l := by
  rw [padStart, digitsToNat_replicate_zero]

lemma padStart_all_digits {l : List Char} (hl : ∀ c ∈ l, c.isDigit = true)
    (n : Nat) : ∀ c ∈ padStart n '0' l, c.isDigit = true := by
  intro c hc
  rcases List.mem_append.mp hc with h | h
  · rcases List.eq_of_mem_replicate h with rfl
    decide
  · exact hl c h

lemma padStart_ne_nil {l : List Char} (hl : l ≠ []) (n : Nat) (c : Char) :
    padStart n c l ≠ [] := by
  rw [padStart]
  intro h
  rcases List.append_eq_nil.mp h with ⟨_, h2⟩
  exact hl h2

lemma length_padStart_ge (n : Nat) (c : Char) (l : List Char) :
    n ≤ (padStart n c l).length := by
  rw [padStart, List.length_append, List.length_replicate]
  omega

lemma padEnd_of_le {n : Nat} {l : List Char} (h : n ≤ l.length) (c : Char) :
    padEnd n c l = l := by
  rw [padEnd, Nat.sub_eq_zero_of_le h]
  simp

lemma isDigit_ne_colon {c : Char} (h : c.isDigit = true) : c ≠ ':' := by
  intro hc; subst hc; exact absurd h (by decide)

lemma isDigit_ne_comma {c : Char} (h : c.isDigit = true) : c ≠ ',' := by
  intro hc; subst hc; exact absurd h (by decide)

lemma isDigit_ne_dot {c : Char} (h : c.isDigit = true) : c ≠ '.' := by
  intro hc; subst hc; exact absurd h (by decide)

lemma isDigit_ne_minus {c : Char} (h : c.isDigit = true) : c ≠ '-' := by
  intro hc; subst hc; exact absurd h (by decide)

lemma isDigit_ne_plus {c : Char} (h : c.isDigit = true) : c ≠ '+' := by
  intro hc; subst hc; exact absurd h (by decide)

lemma isDigit_not_jsSpace {c : Char} (h : c.isDigit = true) : jsSpace c = false := by
  cases hs : jsSpace c
  · rfl
  · exfalso
    simp only [jsSpace, Bool.or_eq_true, beq_iff_eq] at hs
    rcases hs with ((((rfl | rfl) | rfl) | rfl) | rfl) | rfl <;> exact absurd h (by decide)

lemma replaceFirst_append_of_not_mem {l₁ : List Char} {a : Char}
    (h : ∀ c ∈ l₁, c ≠ a) (l₂ : List Char) (b : Char) :
    replaceFirst (l₁ ++ l₂) a b = l₁ ++ replaceFirst l₂ a b := by
  induction l₁ with
  | nil => simp
  | cons c rest ih =>
    rw [List.cons_append, replaceFirst, if_neg (h c (by simp)), List.cons_append,
      ih fun x hx => h x (by simp [hx])]

lemma replaceFirst_cons_self (a b : Char) (l : List Char) :
    replaceFirst (a :: l) a b = b :: l := by
  rw [replaceFirst, if_pos rfl]

lemma replaceFirst_cons_ne {c a : Char} (h : c ≠ a) (b : Char) (l : List Char) :
    replaceFirst (c :: l) a b = c :: replaceFirst l a b := by
  rw [replaceFirst, if_neg h]

lemma splitOnChar_ne_nil (sep : Char) (l : List Char) : splitOnChar sep l ≠ [] := by
  cases l with
  | nil => simp [splitOnChar]
  | cons c rest =>
    rw [splitOnChar]
    by_cases h : c = sep
    · rw [if_pos h]; simp
    · rw [if_neg h]
      cases splitOnChar sep rest <;> simp

lemma splitOnChar_of_not_mem {sep : Char} {l : List Char}
    (h : ∀ c ∈ l, c ≠ sep) : splitOnChar sep l = [l] := by
  induction l with
  | nil => rfl
  | cons c rest ih =>
    rw [splitOnChar, if_neg (h c (by simp)), ih fun x hx => h x (by simp [hx])]

lemma splitOnChar_append {sep : Char} {l₁ : List Char}
    (h : ∀ c ∈ l₁, c ≠ sep) (l₂ : List Char) :
    splitOnChar sep (l₁ ++ sep :: l₂) = l₁ :: splitOnChar sep l₂ := by
  induction l₁ with
  | nil => rw [List.nil_append, splitOnChar, if_pos rfl]
  | cons c rest ih =>
    rw [List.cons_append, splitOnChar, if_neg (h c (by simp)),
      ih fun x hx => h x (by simp [hx])]

lemma takeWhile_digits {l : List Char} (h : ∀ c ∈ l, c.isDigit = true) :
    l.takeWhile Char.isDigit = l :=
  List.takeWhile_eq_self_iff.mpr h

lemma jsParseInt_digits {l : List Char} (hne : l ≠ [])
    (h : ∀ c ∈ l, c.isDigit = true) : jsParseInt l = some ((digitsToNat l : Int)) := by
  cases l with
  | nil => exact absurd rfl hne
  | cons c rest =>
    have hc : c.isDigit = true := h c (by simp)
    have hd : (c :: rest).dropWhile jsSpace = c :: rest := by
      rw [List.dropWhile_cons, if_neg (by rw [isDigit_not_jsSpace hc]; simp)]
    rw [jsParseInt]
    simp only [hd, List.head?_cons, List.tail_cons]
    rw [if_neg (by simp [isDigit_ne_minus hc]), if_neg (by simp [isDigit_ne_plus hc])]
    rw [jsParseDigits]
    simp only [takeWhile_digits h]
    rw [if_neg (by simp)]
    rfl

/-- Parsing a formatted `HH:MM:SS,mmm` timestamp (each field zero-padded from
its decimal digits) recovers `h*3600 + m*60 + s + ms/1000`. -/
lemma srtTimeToSeconds_format (h m s ms : Nat) :
    srtTimeToSeconds (padStart 2 '0' (natDigits h) ++ ':' ::
        (padStart 2 '0' (natDigits m) ++ ':' ::
          (padStart 2 '0' (natDigits s) ++ ',' :: padStart 3 '0' (natDigits ms))))
      = .ok (some ((h : ℚ) * 3600 + (m : ℚ) * 60 + (s : ℚ) + (ms : ℚ) / 1000)) := by
  have Dh := padStart_all_digits (natDigits_all_digits h) 2
  have Dm := padStart_all_digits (natDigits_all_digits m) 2
  have Ds := padStart_all_digits (natDigits_all_digits s) 2
  have Dms := padStart_all_digits (natDigits_all_digits ms) 3
  have hrep : replaceFirst (padStart 2 '0' (natDigits h) ++ ':' ::
      (padStart 2 '0' (natDigits m) ++ ':' ::
        (padStart 2 '0' (natDigits s) ++ ',' :: padStart 3 '0' (natDigits ms)))) ',' '.'
      = padStart 2 '0' (natDigits h) ++ ':' ::
        (padStart 2 '0' (natDigits m) ++ ':' ::
          (padStart 2 '0' (natDigits s) ++ '.' :: padStart 3 '0' (natDigits ms))) := by
    rw [replaceFirst_append_of_not_mem fun c hc => isDigit_ne_comma (Dh c hc),
      replaceFirst_cons_ne (by decide),
      replaceFirst_append_of_not_mem fun c hc => isDigit_ne_comma (Dm c hc),
      replaceFirst_cons_ne (by decide),
      replaceFirst_append_of_not_mem fun c hc => isDigit_ne_comma (Ds c hc),
      replaceFirst_cons_self]
  have hsplit : splitOnChar ':' (padStart 2 '0' (natDigits h) ++ ':' ::
      (padStart 2 '0' (natDigits m) ++ ':' ::
        (padStart 2 '0' (natDigits s) ++ '.' :: padStart 3 '0' (natDigits ms))))
      = [padStart 2 '0' (natDigits h), padStart 2 '0' (natDigits m),
        padStart 2 '0' (natDigits s) ++ '.' :: padStart 3 '0' (natDigits ms)] := by
    rw [splitOnChar_append fun c hc => isDigit_ne_colon (Dh c hc),
      splitOnChar_append fun c hc => isDigit_ne_colon (Dm c hc),
      splitOnChar_of_not_mem]
    intro c hc
    rcases List.mem_append.mp hc with h' | h'
    · exact isDigit_ne_colon (Ds c h')
    · rcases List.mem_cons.mp h' with rfl | h''
      · decide
      · exact isDigit_ne_colon (Dms c h'')
  have hsplit2 : splitOnChar '.'
      (padStart 2 '0' (natDigits s) ++ '.' :: padStart 3 '0' (natDigits ms))
      = [padStart 2 '0' (natDigits s), padStart 3 '0' (natDigits ms)] := by
    rw [splitOnChar_append fun c hc => isDigit_ne_dot (Ds c hc),
      splitOnChar_of_not_mem fun c hc => isDigit_ne_dot (Dms c hc)]
  have hpad : padEnd 3 '0' (padStart 3 '0' (natDigits ms)) = padStart 3 '0' (natDigits ms) :=
    padEnd_of_le (length_padStart_ge 3 '0' (natDigits ms)) '0'
  have hph : jsParseInt (padStart 2 '0' (natDigits h))
      = some ((digitsToNat (padStart 2 '0' (natDigits h)) : Int)) :=
    jsParseInt_digits (padStart_ne_nil (natDigits_ne_nil h) 2 '0') Dh
  have hpm : jsParseInt (padStart 2 '0' (natDigits m))
      = some ((digitsToNat (padStart 2 '0' (natDigits m)) : Int)) :=
    jsParseInt_digits (padStart_ne_nil (natDigits_ne_nil m) 2 '0') Dm
  have hps : jsParseInt (padStart 2 '0' (natDigits s))
      = some ((digitsToNat (padStart 2 '0' (natDigits s)) : Int)) :=
    jsParseInt_digits (padStart_ne_nil (natDigits_ne_nil s) 2 '0') Ds
  have hpms : jsParseInt (padStart 3 '0' (natDigits ms))
      = some ((digitsToNat (padStart 3 '0' (natDigits ms)) : Int)) :=
    jsParseInt_digits (padStart_ne_nil (natDigits_ne_nil ms) 3 '0') Dms
  rw [srtTimeToSeconds]
  simp only [hrep, hsplit, List.length_cons, List.length_nil, List.getD, List.get?]
  rw [if_neg (by simp)]
  simp only [Option.getD_some, hsplit2, List.get?_cons_zero, List.get?_cons_succ, hpad,
    hph, hpm, hps, hpms, digitsToNat_padStart, digitsToNat_natDigits,
    Option.some_bind, Option.map_some]
  refine congrArg (fun q => Except.ok (some q)) ?_
  push_cast
  ring

lemma jsTrunc_of_nonneg {q : ℚ} (h : 0 ≤ q) : jsTrunc q = ⌊q⌋ := by
  rw [jsTrunc, if_neg (not_lt.mpr h)]

lemma intToChars_of_nonneg {i : Int} (h : 0 ≤ i) : intToChars i = natDigits i.toNat := by
  rw [intToChars, if_neg (not_lt.mpr h)]

/-- C4: for all `seconds ≥ 0`, parsing the formatted timestamp returns the
original value within one millisecond:
`|srtTimeToSeconds (secondsToSrtTime s) - s| ≤ 0.001`. -/
theorem timestamp_round_trip (s : ℚ) (hs : 0 ≤ s) :
    ∃ v, srtTimeToSeconds (secondsToSrtTime s) = .ok (some v) ∧ |v - s| ≤ 1 / 1000 := by
  have hfloor_le : ((⌊s⌋ : ℤ) : ℚ) ≤ s := Int.floor_le s
  have hfloor3600_le : ((⌊s / 3600⌋ : ℤ) : ℚ) ≤ s / 3600 := Int.floor_le _
  have hfloor60_le : ((⌊s / 60⌋ : ℤ) : ℚ) ≤ s / 60 := Int.floor_le _
  have hH : (0 : ℤ) ≤ ⌊s / 3600⌋ := Int.floor_nonneg.mpr (by positivity)
  have hmod3600 : jsMod s 3600 = s - 3600 * ((⌊s / 3600⌋ : ℤ) : ℚ) := by
    rw [jsMod, jsTrunc_of_nonneg (by positivity)]
  have hmod3600_nonneg : 0 ≤ jsMod s 3600 := by
    rw [hmod3600]
    have := hfloor3600_le
    linarith [mul_le_mul_of_nonneg_left hfloor3600_le (by norm_num : (0:ℚ) ≤ 3600)]
  have hMeq : ⌊jsMod s 3600 / 60⌋ = ⌊s / 60⌋ - 60 * ⌊s / 3600⌋ := by
    have harg : jsMod s 3600 / 60 = s / 60 - ((60 * ⌊s / 3600⌋ : ℤ) : ℚ) := by
      rw [hmod3600]
      push_cast
      ring
    rw [harg, Int.floor_sub_int]
  have hM_nonneg : (0 : ℤ) ≤ ⌊jsMod s 3600 / 60⌋ :=
    Int.floor_nonneg.mpr (by positivity)
  have hmod60 : jsMod s 60 = s - 60 * ((⌊s / 60⌋ : ℤ) : ℚ) := by
    rw [jsMod, jsTrunc_of_nonneg (by positivity)]
  have hSeq : ⌊jsMod s 60⌋ = ⌊s⌋ - 60 * ⌊s / 60⌋ := by
    have harg : jsMod s 60 = s - ((60 * ⌊s / 60⌋ : ℤ) : ℚ) := by
      rw [hmod60]; push_cast; ring
    rw [harg, Int.floor_sub_int]
  have hmod60_nonneg : 0 ≤ jsMod s 60 := by
    rw [hmod60]
    linarith [mul_le_mul_of_nonneg_left hfloor60_le (by norm_num : (0:ℚ) ≤ 60)]
  have hS_nonneg : (0 : ℤ) ≤ ⌊jsMod s 60⌋ := Int.floor_nonneg.mpr hmod60_nonneg
  have hmod1 : jsMod s 1 = s - ((⌊s⌋ : ℤ) : ℚ) := by
    rw [jsMod, div_one, jsTrunc_of_nonneg hs, mul_comm, mul_one]
  have hReq : jsRound (jsMod s 1 * 1000) = ⌊(s - ((⌊s⌋ : ℤ) : ℚ)) * 1000 + 1 / 2⌋ := by
    rw [jsRound, hmod1]
  have hR_nonneg : (0 : ℤ) ≤ jsRound (jsMod s 1 * 1000) := by
    rw [hReq]
    apply Int.floor_nonneg.mpr
    have : 0 ≤ s - ((⌊s⌋ : ℤ) : ℚ) := by linarith
    positivity
  have hshape : secondsToSrtTime s
      = padStart 2 '0' (natDigits ⌊s / 3600⌋.toNat) ++ ':' ::
          (padStart 2 '0' (natDigits ⌊jsMod s 3600 / 60⌋.toNat) ++ ':' ::
            (padStart 2 '0' (natDigits ⌊jsMod s 60⌋.toNat) ++ ',' ::
              padStart 3 '0' (natDigits (jsRound (jsMod s 1 * 1000)).toNat))) := by
    rw [secondsToSrtTime, intToChars_of_nonneg hH, intToChars_of_nonneg hM_nonneg,
      intToChars_of_nonneg hS_nonneg, intToChars_of_nonneg hR_nonneg]
    simp only [List.cons_append, List.append_assoc]
  rw [hshape, srtTimeToSeconds_format]
  refine ⟨_, rfl, ?_⟩
  have c1 : ((⌊s / 3600⌋.toNat : ℕ) : ℚ) = ((⌊s / 3600⌋ : ℤ) : ℚ) := by
    exact_mod_cast congrArg (fun z : ℤ => (z : ℚ)) (Int.toNat_of_nonneg hH)
  have c2 : ((⌊jsMod s 3600 / 60⌋.toNat : ℕ) : ℚ) = ((⌊jsMod s 3600 / 60⌋ : ℤ) : ℚ) := by
    exact_mod_cast congrArg (fun z : ℤ => (z : ℚ)) (Int.toNat_of_nonneg hM_nonneg)
  have c3 : ((⌊jsMod s 60⌋.toNat : ℕ) : ℚ) = ((⌊jsMod s 60⌋ : ℤ) : ℚ) := by
    exact_mod_cast congrArg (fun z : ℤ => (z : ℚ)) (Int.toNat_of_nonneg hS_nonneg)
  have c4 : (((jsRound (jsMod s 1 * 1000)).toNat : ℕ) : ℚ)
      = ((jsRound (jsMod s 1 * 1000) : ℤ) : ℚ) := by
    exact_mod_cast congrArg (fun z : ℤ => (z : ℚ)) (Int.toNat_of_nonneg hR_nonneg)
  rw [c1, c2, c3, c4, hMeq, hSeq, hReq]
  have hrle : ((⌊(s - ((⌊s⌋ : ℤ) : ℚ)) * 1000 + 1 / 2⌋ : ℤ) : ℚ)
      ≤ (s - ((⌊s⌋ : ℤ) : ℚ)) * 1000 + 1 / 2 := Int.floor_le _
  have hrgt : (s - ((⌊s⌋ : ℤ) : ℚ)) * 1000 + 1 / 2 - 1
      < ((⌊(s - ((⌊s⌋ : ℤ) : ℚ)) * 1000 + 1 / 2⌋ : ℤ) : ℚ) := Int.sub_one_lt_floor _
  rw [abs_le]
  push_cast
  constructor <;> linarith

/-- Witness instantiating `timestamp_round_trip` at `s = 5`. -/
theorem timestamp_round_trip_witness :
    ∃ v, srtTimeToSeconds (secondsToSrtTime (5 : ℚ)) = .ok (some v) ∧
      |v - (5 : ℚ)| ≤ 1 / 1000 :=
  timestamp_round_trip 5 (by decide)

lemma count_replaceFirst {a b sep : Char} (ha : a ≠ sep) (hb : b ≠ sep) :
    ∀ l : List Char, (replaceFirst l a b).count sep = l.count sep := by
  intro l
  induction l with
  | nil => rfl
  | cons c rest ih =>
    rw [replaceFirst]
    by_cases hc : c = a
    · rw [if_pos hc, hc]
      rw [List.count_cons, List.count_cons]
      rw [if_neg (by simp [hb]), if_neg (by simp [ha])]
    · rw [if_neg hc, List.count_cons, List.count_cons, ih]

lemma splitOnChar_length (sep : Char) :
    ∀ l : List Char, (splitOnChar sep l).length = l.count sep + 1 := by
  intro l
  induction l with
  | nil => rfl
  | cons c rest ih =>
    rw [splitOnChar]
    by_cases hc : c = sep
    · rw [if_pos hc, List.length_cons, ih, List.count_cons, if_pos (by simp [hc])]
    · rw [if_neg hc]
      have hne := splitOnChar_ne_nil sep rest
      rcases hsplit : splitOnChar sep rest with _ | ⟨t, ts⟩
      · exact absurd hsplit hne
      · rw [List.length_cons]
        rw [hsplit, List.length_cons] at ih
        rw [List.count_cons, if_neg (by simp [hc]), ih]

/-- `srtTimeToSeconds` throws exactly when the input does not contain exactly
two `:` characters (the split yields a number of parts other than 3). -/
lemma srtTimeToSeconds_error_iff (ts : List Char) :
    (∃ e, srtTimeToSeconds ts = .error e) ↔ ts.count ':' ≠ 2 := by
  have hcnt : (splitOnChar ':' (replaceFirst ts ',' '.')).length = ts.count ':' + 1 := by
    rw [splitOnChar_length, count_replaceFirst (by decide) (by decide)]
  rw [srtTimeToSeconds]
  by_cases hc : ts.count ':' = 2
  · rw [if_neg (by rw [hcnt, hc]; simp)]
    simp only [hc]
    constructor
    · rintro ⟨e, he⟩
      exact absurd he (by simp)
    · intro hcc
      exact absurd rfl hcc
  · rw [if_pos (by rw [hcnt]; omega)]
    exact ⟨fun _ => hc, fun _ => ⟨(), rfl⟩⟩

/-- C5 (amended): `srtTimeToSeconds` raises an error exactly when the input
does not contain exactly two `:` separators; on every well-formed
`HH:MM:SS,mmm` input (zero-padded fields) it returns
`h*3600 + m*60 + s + ms/1000`.  Other non-matching inputs with two colons do
not raise. -/
theorem parseTimestamp_error_and_value :
    (∀ ts : List Char, (∃ e, srtTimeToSeconds ts = .error e) ↔ ts.count ':' ≠ 2) ∧
    (∀ h m s ms : Nat,
      srtTimeToSeconds (padStart 2 '0' (natDigits h) ++ ':' ::
          (padStart 2 '0' (natDigits m) ++ ':' ::
            (padStart 2 '0' (natDigits s) ++ ',' :: padStart 3 '0' (natDigits ms))))
        = .ok (some ((h : ℚ) * 3600 + (m : ℚ) * 60 + (s : ℚ) + (ms : ℚ) / 1000))) :=
  ⟨srtTimeToSeconds_error_iff, srtTimeToSeconds_format⟩

/-- C5, claim as stated, is false: `"0:0:0"` does not match the claimed
`HH:MM:SS[,.]mmm` pattern (fields not zero-padded to fixed width, no
fractional part), yet `srtTimeToSeconds` does not throw — it returns 0. -/
theorem parseTimestamp_counterexample :
    srtTimeToSeconds ("0:0:0".toList) = .ok (some 0) ∧
    ∀ e, srtTimeToSeconds ("0:0:0".toList) ≠ .error e := by
  constructor
  · show srtTimeToSeconds ['0', ':', '0', ':', '0'] = .ok (some 0)
    rw [srtTimeToSeconds]
    have hd : '0'.isDigit = true := by decide
    have ht : '0'.toNat = 48 := by decide
    norm_num +decide [replaceFirst, splitOnChar, jsParseInt, jsParseDigits, jsSpace,
      digitsToNat, digitVal, padEnd, List.dropWhile, List.takeWhile, List.getD, hd, ht]
  · intro e he
    have h2 : ("0:0:0".toList).count ':' = 2 := by decide
    exact (srtTimeToSeconds_error_iff _).mp ⟨e, he⟩ h2

/-! ## Azure speech text chunker (`AzureSpeechSynthesizer.splitTextIntoChunks`) -/

/-- `MAX_CHARS_PER_CHUNK` from the Azure speech synthesizer. -/
def MAX_CHARS_PER_CHUNK : Nat := 2000

/-- Sentence-terminating punctuation of the regex class `[.!?]`. -/
def isSentEnd (c : Char) : Bool := c == '.' || c == '!' || c == '?'

/-- JS `text.split(/(?<=[.!?])\s+/)` as a left-to-right scan: `p` is the
previous character of the original string, `acc` the current (reversed)
token, `skip` is true while consuming the `\s+` separator run. -/
def sentGo : List Char → Char → List Char → Bool → List (List Char)
  | [], _, _, true => [[]]
  | [], _, acc, false => [acc.reverse]
  | c :: rest, _, acc, true =>
    if jsSpace c then sentGo rest c acc true
    else sentGo rest c [c] false
  | c :: rest, p, acc, false =>
    if jsSpace c && isSentEnd p then acc.reverse :: sentGo rest c [] true
    else sentGo rest c (c :: acc) false

/-- JS `text.split(/(?<=[.!?])\s+/)`. -/
def splitSentences (text : List Char) : List (List Char) :=
  sentGo text '\x00' [] false

/-- JS `sentence.split(/(?<=,)\s*/)` as a left-to-right scan; a split point
is every position whose previous character is `,`, and the (possibly empty)
whitespace run after it is consumed as the separator. -/
def commaGo : List Char → Char → List Char → Bool → List (List Char)
  | [], _, _, true => [[]]
  | [], _, acc, false => [acc.reverse]
  | c :: rest, _, acc, true =>
    if jsSpace c then commaGo rest c acc true
    else commaGo rest c [c] false
  | c :: rest, p, acc, false =>
    if p = ',' then
      acc.reverse ::
        (if jsSpace c then commaGo rest c [] true else commaGo rest c [c] false)
    else commaGo rest c (c :: acc) false

/-- JS `sentence.split(/(?<=,)\s*/)`. -/
def splitCommaParts (sentence : List Char) : List (List Char) :=
  commaGo sentence '\x00' [] false

/-- JS `String.prototype.trim`. -/
def jsTrim (l : List Char) : List Char :=
  ((l.dropWhile jsSpace).reverse.dropWhile jsSpace).reverse

/-- The inner `for (const part of parts)` loop of `splitTextIntoChunks`:
returns the chunks pushed (in order) and the final `currentChunk`. -/
def commaLoop : List (List Char) → List Char → List (List Char) × List Char
  | [], cc => ([], cc)
  | part :: rest, cc =>
    if cc.length + 1 + part.length > MAX_CHARS_PER_CHUNK then
      let r := commaLoop rest part
      ((if cc.isEmpty then [] else [jsTrim cc]) ++ r.1, r.2)
    else commaLoop rest (if cc.isEmpty then part else cc ++ ' ' :: part)

/-- The outer `for (const sentence of sentences)` loop of
`splitTextIntoChunks`. -/
def sentLoop : List (List Char) → List Char → List (List Char) × List Char
  | [], cc => ([], cc)
  | sentence :: rest, cc =>
    if sentence.length > MAX_CHARS_PER_CHUNK then
      let r1 := commaLoop (splitCommaParts sentence) []
      let r2 := sentLoop rest r1.2
      ((if cc.isEmpty then [] else [jsTrim cc]) ++ r1.1 ++ r2.1, r2.2)
    else if cc.length + 1 + sentence.length > MAX_CHARS_PER_CHUNK then
      let r := sentLoop rest sentence
      (jsTrim cc :: r.1, r.2)
    else sentLoop rest (if cc.isEmpty then sentence else cc ++ ' ' :: sentence)

/-- `splitTextIntoChunks` from the Azure speech synthesizer (lines 64-109):
early return below the ceiling, then sentence/comma chunk assembly with a
final flush of the trimmed `currentChunk`. -/
def splitTextIntoChunks (text : List Char) : List (List Char) :=
  if text.length ≤ MAX_CHARS_PER_CHUNK then [text]
  else
    let r := sentLoop (splitSentences text) []
    r.1 ++ (if (jsTrim r.2).isEmpty then [] else [jsTrim r.2])

lemma dropWhile_of_forall_not {p : Char → Bool} :
    ∀ l : List Char, (∀ c ∈ l, p c = false) → l.dropWhile p = l := by
  intro l
  induction l with
  | nil => intro _; rfl
  | cons c rest _ =>
    intro h
    rw [List.dropWhile_cons, if_neg (by rw [h c (by simp)]; simp)]

lemma jsTrim_no_space {l : List Char} (h : ∀ c ∈ l, jsSpace c = false) :
    jsTrim l = l := by
  rw [jsTrim, dropWhile_of_forall_not l h,
    dropWhile_of_forall_not l.reverse fun c hc => h c (List.mem_reverse.mp hc),
    List.reverse_reverse]

lemma jsTrim_length_le (l : List Char) : (jsTrim l).length ≤ l.length := by
  rw [jsTrim, List.length_reverse]
  calc ((l.dropWhile jsSpace).reverse.dropWhile jsSpace).length
      ≤ (l.dropWhile jsSpace).reverse.length :=
        (List.dropWhile_sublist jsSpace).length_le
    _ = (l.dropWhile jsSpace).length := List.length_reverse _
    _ ≤ l.length := (List.dropWhile_sublist jsSpace).length_le

lemma sentGo_no_space :
    ∀ l : List Char, (∀ c ∈ l, jsSpace c = false) →
      ∀ (p : Char) (acc : List Char), sentGo l p acc false = [acc.reverse ++ l] := by
  intro l
  induction l with
  | nil => intro _ p acc; simp [sentGo]
  | cons c rest ih =>
    intro h p acc
    rw [sentGo, if_neg (by rw [h c (by simp)]; simp)]
    rw [ih (fun x hx => h x (by simp [hx])) c (c :: acc)]
    simp

lemma commaGo_no_comma :
    ∀ l : List Char, (∀ c ∈ l, c ≠ ',') →
      ∀ (p : Char) (acc : List Char), p ≠ ',' → commaGo l p acc false = [acc.reverse ++ l] := by
  intro l
  induction l with
  | nil => intro _ p acc _; simp [commaGo]
  | cons c rest ih =>
    intro h p acc hp
    rw [commaGo, if_neg hp]
    rw [ih (fun x hx => h x (by simp [hx])) c (c :: acc) (h c (by simp))]
    simp

lemma commaLoop_bound :
    ∀ (parts : List (List Char)) (cc : List Char),
      cc.length ≤ MAX_CHARS_PER_CHUNK →
      (∀ p ∈ parts, p.length ≤ MAX_CHARS_PER_CHUNK) →
      (∀ ch ∈ (commaLoop parts cc).1, ch.length ≤ MAX_CHARS_PER_CHUNK) ∧
      (commaLoop parts cc).2.length ≤ MAX_CHARS_PER_CHUNK := by
  intro parts
  induction parts with
  | nil => intro cc hcc _; exact ⟨by simp [commaLoop], by simpa [commaLoop] using hcc⟩
  | cons part rest ih =>
    intro cc hcc hp
    have hpart : part.length ≤ MAX_CHARS_PER_CHUNK := hp part (by simp)
    have hrest : ∀ p ∈ rest, p.length ≤ MAX_CHARS_PER_CHUNK :=
      fun p hp' => hp p (by simp [hp'])
    rw [commaLoop]
    by_cases hov : cc.length + 1 + part.length > MAX_CHARS_PER_CHUNK
    · rw [if_pos hov]
      obtain ⟨ih1, ih2⟩ := ih part hpart hrest
      refine ⟨?_, ih2⟩
      intro ch hch
      rcases List.mem_append.mp hch with h' | h'
      · by_cases hemp : cc.isEmpty
        · rw [if_pos hemp] at h'; simp at h'
        · rw [if_neg hemp] at h'
          rcases List.mem_singleton.mp h' with rfl
          exact le_trans (jsTrim_length_le cc) hcc
      · exact ih1 ch h'
    · rw [if_neg hov]
      apply ih
      · by_cases hemp : cc.isEmpty
        · rw [if_pos hemp]; exact hpart
        · rw [if_neg hemp]
          rw [List.length_append, List.length_cons]
          omega
      · exact hrest

lemma sentLoop_bound :
    ∀ (sents : List (List Char)) (cc : List Char),
      cc.length ≤ MAX_CHARS_PER_CHUNK →
      (∀ s ∈ sents, s.length > MAX_CHARS_PER_CHUNK →
        ∀ p ∈ splitCommaParts s, p.length ≤ MAX_CHARS_PER_CHUNK) →
      (∀ ch ∈ (sentLoop sents cc).1, ch.length ≤ MAX_CHARS_PER_CHUNK) ∧
      (sentLoop sents cc).2.length ≤ MAX_CHARS_PER_CHUNK := by
  intro sents
  induction sents with
  | nil => intro cc hcc _; exact ⟨by simp [sentLoop], by simpa [sentLoop] using hcc⟩
  | cons s rest ih =>
    intro cc hcc hp
    have hrest : ∀ s' ∈ rest, s'.length > MAX_CHARS_PER_CHUNK →
        ∀ p ∈ splitCommaParts s', p.length ≤ MAX_CHARS_PER_CHUNK :=
      fun s' hs' => hp s' (by simp [hs'])
    rw [sentLoop]
    by_cases hov : s.length > MAX_CHARS_PER_CHUNK
    · rw [if_pos hov]
      obtain ⟨c1, c2⟩ := commaLoop_bound (splitCommaParts s) [] (by simp) (hp s (by simp) hov)
      obtain ⟨i1, i2⟩ := ih (commaLoop (splitCommaParts s) []).2 c2 hrest
      refine ⟨?_, i2⟩
      intro ch hch
      rcases List.mem_append.mp hch with h' | h'
      · rcases List.mem_append.mp h' with h'' | h''
        · by_cases hemp : cc.isEmpty
          · rw [if_pos hemp] at h''; simp at h''
          · rw [if_neg hemp] at h''
            rcases List.mem_singleton.mp h'' with rfl
            exact le_trans (jsTrim_length_le cc) hcc
        · exact c1 ch h''
      · exact i1 ch h'
    · rw [if_neg hov]
      by_cases hov2 : cc.length + 1 + s.length > MAX_CHARS_PER_CHUNK
      · rw [if_pos hov2]
        obtain ⟨i1, i2⟩ := ih s (by omega) hrest
        refine ⟨?_, i2⟩
        intro ch hch
        rcases List.mem_cons.mp hch with rfl | h'
        · exact le_trans (jsTrim_length_le cc) hcc
        · exact i1 ch h'
      · rw [if_neg hov2]
        apply ih _ _ hrest
        by_cases hemp : cc.isEmpty
        · rw [if_pos hemp]; omega
        · rw [if_neg hemp]
          rw [List.length_append, List.length_cons]
          omega

/-- C6 (amended): every chunk produced by `splitTextIntoChunks` has length at
most `MAX_CHARS_PER_CHUNK`, provided every comma-delimited part of every
oversized sentence is itself within the ceiling; a comma-free oversized
piece is passed through whole (no raw-concatenation fallback exists). -/
theorem chunk_length_bound (text : List Char)
    (hp : ∀ s ∈ splitSentences text, s.length > MAX_CHARS_PER_CHUNK →
      ∀ p ∈ splitCommaParts s, p.length ≤ MAX_CHARS_PER_CHUNK) :
    ∀ chunk ∈ splitTextIntoChunks text, chunk.length ≤ MAX_CHARS_PER_CHUNK := by
  intro chunk hchunk
  rw [splitTextIntoChunks] at hchunk
  by_cases hshort : text.length ≤ MAX_CHARS_PER_CHUNK
  · rw [if_pos hshort] at hchunk
    rcases List.mem_singleton.mp hchunk with rfl
    exact hshort
  · rw [if_neg hshort] at hchunk
    obtain ⟨b1, b2⟩ := sentLoop_bound (splitSentences text) [] (by simp) hp
    rcases List.mem_append.mp hchunk with h' | h'
    · exact b1 chunk h'
    · by_cases hemp : (jsTrim (sentLoop (splitSentences text) []).2).isEmpty
      · rw [if_pos hemp] at h'; simp at h'
      · rw [if_neg hemp] at h'
        rcases List.mem_singleton.mp h' with rfl
        exact le_trans (jsTrim_length_le _) b2

/-- Witness instantiating `chunk_length_bound` at a concrete text (2000
identical letters, which takes the early-return path). -/
theorem chunk_length_bound_witness :
    (List.replicate 2000 'a').length ≤ MAX_CHARS_PER_CHUNK :=
  chunk_length_bound (List.replicate 2000 'a') (by
    have hnospace : ∀ c ∈ List.replicate 2000 'a', jsSpace c = false :=
      fun c hc => by rw [List.eq_of_mem_replicate hc]; decide
    have hsent : splitSentences (List.replicate 2000 'a') = [List.replicate 2000 'a'] := by
      rw [splitSentences, sentGo_no_space _ hnospace]
      rw [List.reverse_nil, List.nil_append]
    intro s hs hlen
    rw [hsent, List.mem_singleton] at hs
    subst hs
    rw [List.length_replicate] at hlen
    exact absurd hlen (by decide))
    (List.replicate 2000 'a')
    (by
      rw [splitTextIntoChunks, List.length_replicate,
        if_pos (by decide : 2000 ≤ MAX_CHARS_PER_CHUNK)]
      exact List.mem_singleton.mpr rfl)

/-- C6, claim as stated, is false: 2001 copies of `a` (no punctuation at
all) come back as a single chunk of length 2001, above the 2000-character
ceiling — the code has no raw-concatenation fallback. -/
theorem chunk_length_counterexample :
    ¬ (∀ chunk ∈ splitTextIntoChunks (List.replicate 2001 'a'),
        chunk.length ≤ MAX_CHARS_PER_CHUNK) := by
  have hnospace : ∀ c ∈ List.replicate 2001 'a', jsSpace c = false :=
    fun c hc => by rw [List.eq_of_mem_replicate hc]; decide
  have hnocomma : ∀ c ∈ List.replicate 2001 'a', c ≠ ',' :=
    fun c hc => by rw [List.eq_of_mem_replicate hc]; decide
  have hsent : splitSentences (List.replicate 2001 'a') = [List.replicate 2001 'a'] := by
    rw [splitSentences, sentGo_no_space _ hnospace]
    rw [List.reverse_nil, List.nil_append]
  have hcomma : splitCommaParts (List.replicate 2001 'a') = [List.replicate 2001 'a'] := by
    rw [splitCommaParts, commaGo_no_comma _ hnocomma _ _ (by decide)]
    rw [List.reverse_nil, List.nil_append]
  have htrim : jsTrim (List.replicate 2001 'a') = List.replicate 2001 'a' :=
    jsTrim_no_space hnospace
  have hne : (List.replicate 2001 'a').isEmpty = false := by
    rw [show (2001 : Nat) = 2000 + 1 from rfl, List.replicate_succ]
    rfl
  have hcl : commaLoop [List.replicate 2001 'a'] [] = ([], List.replicate 2001 'a') := by
    rw [commaLoop, List.length_nil, List.length_replicate,
      if_pos (by decide : 0 + 1 + 2001 > MAX_CHARS_PER_CHUNK), commaLoop]
    rfl
  have hsl : sentLoop [List.replicate 2001 'a'] [] = ([], List.replicate 2001 'a') := by
    rw [sentLoop, List.length_replicate,
      if_pos (by decide : 2001 > MAX_CHARS_PER_CHUNK), hcomma, hcl]
    simp only []
    rw [sentLoop]
    rfl
  have heq : splitTextIntoChunks (List.replicate 2001 'a') = [List.replicate 2001 'a'] := by
    rw [splitTextIntoChunks, List.length_replicate,
      if_neg (by decide : ¬ (2001 ≤ MAX_CHARS_PER_CHUNK)), hsent, hsl]
    show ([] : List (List Char)) ++
      (if (jsTrim (List.replicate 2001 'a')).isEmpty then []
        else [jsTrim (List.replicate 2001 'a')]) = [List.replicate 2001 'a']
    rw [htrim, hne, if_neg (by decide : ¬ (false = true)), List.nil_append]
  intro hall
  have := hall (List.replicate 2001 'a') (by rw [heq]; exact List.mem_singleton.mpr rfl)
  rw [List.length_replicate] at this
  exact absurd this (by decide)

/-! ## Job progress (`calculateOverallProgress` from the job types module) -/

/-- `JobStatus` union type. -/
inductive JobStatus where
  | pending
  | validating
  | parsing
  | analyzing
  | generating_clips
  | processing_video
  | generating_srt
  | generating_tts
  | mixing_audio
  | completed
  | failed
  deriving Repr, DecidableEq

/-- `SummaryMode = 'A' | 'B'` from `llm/types.ts`. -/
inductive SummaryMode where
  | A
  | B
  deriving Repr, DecidableEq

/-- The part of `JobConfig` read by `calculateOverallProgress`. -/
structure JobConfig where
  mode : SummaryMode
  deriving Repr, DecidableEq

/-- The part of `JobProgress` read by `calculateOverallProgress`. -/
structure JobProgress where
  stageProgress : ℚ
  deriving Repr, DecidableEq

/-- The part of `Job` read by `calculateOverallProgress`. -/
structure Job where
  config : JobConfig
  status : JobStatus
  progress : JobProgress
  deriving Repr, DecidableEq

/-- The local `stages` list of `calculateOverallProgress`. -/
def pipelineStages : List JobStatus :=
  [.pending, .validating, .parsing, .analyzing, .generating_clips, .processing_video,
    .generating_srt, .generating_tts, .mixing_audio, .completed]

/-- The local `relevantStages` of `calculateOverallProgress`: mode A filters
out the two TTS stages. -/
def relevantStages (mode : SummaryMode) : List JobStatus :=
  if mode = SummaryMode.A then
    pipelineStages.filter fun s => !(s == JobStatus.generating_tts) && !(s == JobStatus.mixing_audio)
  else pipelineStages

/-- JS `Array.prototype.indexOf`: first index, `-1` when absent. -/
def jsIndexOf (l : List JobStatus) (s : JobStatus) : Int :=
  match l.findIdx? (· == s) with
  | some i => (i : Int)
  | none => -1

/-- `calculateOverallProgress` from the job types module (lines 466-496). -/
def calculateOverallProgress (job : Job) : ℚ :=
  let relevant := relevantStages job.config.mode
  let currentIndex := jsIndexOf relevant job.status
  if currentIndex = -1 then 0
  else if job.status = JobStatus.failed then job.progress.stageProgress
  else if job.status = JobStatus.completed then 100
  else
    let stageWeight : ℚ := 100 / ((relevant.length : ℚ) - 1)
    min 99 (((jsRound ((currentIndex : ℚ) * stageWeight
      + (job.progress.stageProgress / 100) * stageWeight)) : Int) : ℚ)

lemma jsIndexOf_failed (mode : SummaryMode) :
    jsIndexOf (relevantStages mode) JobStatus.failed = -1 := by
  cases mode <;> rfl

lemma status_ne_failed_of_found {job : Job} {i : Nat}
    (hidx : jsIndexOf (relevantStages job.config.mode) job.status = (i : Int)) :
    job.status ≠ JobStatus.failed := by
  intro heq
  rw [heq, jsIndexOf_failed] at hidx
  omega

lemma calcOP_active (job : Job) (i : Nat)
    (hidx : jsIndexOf (relevantStages job.config.mode) job.status = (i : Int))
    (hnc : job.status ≠ JobStatus.completed) :
    calculateOverallProgress job
      = min 99 (((jsRound ((i : ℚ)
          * (100 / (((relevantStages job.config.mode).length : ℚ) - 1))
          + (job.progress.stageProgress / 100)
          * (100 / (((relevantStages job.config.mode).length : ℚ) - 1)))) : Int) : ℚ) := by
  have hne : jsIndexOf (relevantStages job.config.mode) job.status ≠ -1 := by
    rw [hidx]; omega
  rw [calculateOverallProgress]
  simp only []
  rw [if_neg hne, if_neg (status_ne_failed_of_found hidx), if_neg hnc, hidx]
  push_cast
  ring_nf

/-- C7: `calculateOverallProgress` is exactly 100 for a `completed` job and
at most 99 for every other status; the stage list has 7 equal-weighted
segments in mode A and 9 in mode B, and inside the active segment the value
is the linear interpolation of `stageProgress`, rounded and capped at 99. -/
theorem overall_progress_bounds (job : Job) :
    (job.status = JobStatus.completed → calculateOverallProgress job = 100) ∧
    (job.status ≠ JobStatus.completed → calculateOverallProgress job ≤ 99) ∧
    ((relevantStages job.config.mode).length - 1
      = if job.config.mode = SummaryMode.A then 7 else 9) ∧
    (∀ i : Nat, jsIndexOf (relevantStages job.config.mode) job.status = (i : Int) →
      job.status ≠ JobStatus.completed →
      calculateOverallProgress job
        = min 99 (((jsRound ((i : ℚ)
            * (100 / (((relevantStages job.config.mode).length : ℚ) - 1))
            + (job.progress.stageProgress / 100)
            * (100 / (((relevantStages job.config.mode).length : ℚ) - 1)))) : Int) : ℚ)) := by
  obtain ⟨⟨mode⟩, status, ⟨sp⟩⟩ := job
  refine ⟨?_, ?_, ?_, fun i hidx hnc => calcOP_active _ i hidx hnc⟩
  · intro h
    subst h
    cases mode <;> rfl
  · intro h
    by_cases hm : jsIndexOf (relevantStages mode) status = -1
    · have h0 : calculateOverallProgress ⟨⟨mode⟩, status, ⟨sp⟩⟩ = 0 := by
        rw [calculateOverallProgress]
        simp only []
        rw [if_pos hm]
      rw [h0]
      norm_num
    · have hfail : status ≠ JobStatus.failed := by
        intro heq
        rw [heq] at hm
        exact hm (jsIndexOf_failed mode)
      have hmin : calculateOverallProgress ⟨⟨mode⟩, status, ⟨sp⟩⟩
          = min 99 (((jsRound ((jsIndexOf (relevantStages mode) status : ℚ)
              * (100 / (((relevantStages mode).length : ℚ) - 1))
              + (sp / 100)
              * (100 / (((relevantStages mode).length : ℚ) - 1)))) : Int) : ℚ) := by
        rw [calculateOverallProgress]
        simp only []
        rw [if_neg hm, if_neg hfail, if_neg h]
      rw [hmin]
      exact min_le_left _ _
  · cases mode <;> rfl

/-- Witness instantiating `overall_progress_bounds`: a completed mode-B job
reports exactly 100 and a mid-pipeline job reports at most 99. -/
theorem overall_progress_bounds_witness :
    calculateOverallProgress ⟨⟨SummaryMode.B⟩, JobStatus.completed, ⟨50⟩⟩ = 100 ∧
    calculateOverallProgress ⟨⟨SummaryMode.A⟩, JobStatus.parsing, ⟨50⟩⟩ ≤ 99 :=
  ⟨(overall_progress_bounds ⟨⟨SummaryMode.B⟩, JobStatus.completed, ⟨50⟩⟩).1 rfl,
    (overall_progress_bounds ⟨⟨SummaryMode.A⟩, JobStatus.parsing, ⟨50⟩⟩).2.1 (by decide)⟩

/-- C10: for a `failed` job the overall progress is 0 regardless of the
recorded `stageProgress`: `failed` is not in the stage list, the index
lookup yields `-1` and the function returns 0 before the branch that would
return `stageProgress`. -/
theorem failed_progress_zero (job : Job) (hf : job.status = JobStatus.failed) :
    calculateOverallProgress job = 0 ∧
    jsIndexOf (relevantStages job.config.mode) JobStatus.failed = -1 := by
  obtain ⟨⟨mode⟩, status, ⟨sp⟩⟩ := job
  subst hf
  cases mode <;> exact ⟨rfl, rfl⟩

/-- Witness instantiating `failed_progress_zero` at a failed job whose
recorded `stageProgress` is 55. -/
theorem failed_progress_zero_witness :
    calculateOverallProgress ⟨⟨SummaryMode.B⟩, JobStatus.failed, ⟨55⟩⟩ = 0 ∧
    jsIndexOf (relevantStages SummaryMode.B) JobStatus.failed = -1 :=
  failed_progress_zero ⟨⟨SummaryMode.B⟩, JobStatus.failed, ⟨55⟩⟩ rfl

/-! ## Episode identity resolver (`extractEpisodeIdFromFilename`) -/

/-- Greedy capture of one or two leading decimal digits (`\d{1,2}` with
nothing required after it): two if available, else one. -/
def grabDigits12 : List Char → Option (List Char × List Char)
  | d1 :: d2 :: rest =>
    if d1.isDigit && d2.isDigit then some ([d1, d2], rest)
    else if d1.isDigit then some ([d1], d2 :: rest)
    else none
  | [d1] => if d1.isDigit then some ([d1], []) else none
  | [] => none

/-- `[Ee](\d{1,2})` at the head of the list, returning the episode digits. -/
def matchETail : List Char → Option (List Char)
  | e :: rest =>
    if e = 'E' ∨ e = 'e' then (grabDigits12 rest).map (·.1) else none
  | [] => none

/-- `[Ss](\d{1,2})[Ee](\d{1,2})` anchored at the head of the list, with the
greedy-then-backtrack behaviour of `\d{1,2}` before the required `[Ee]`. -/
def matchSEAt : List Char → Option (List Char × List Char)
  | s :: rest =>
    if s = 'S' ∨ s = 's' then
      match rest with
      | d1 :: d2 :: r2 =>
        if d1.isDigit && d2.isDigit then
          match matchETail r2 with
          | some ep => some ([d1, d2], ep)
          | none =>
            match matchETail (d2 :: r2) with
            | some ep => some ([d1], ep)
            | none => none
        else if d1.isDigit then
          match matchETail (d2 :: r2) with
          | some ep => some ([d1], ep)
          | none => none
        else none
      | _ => none
    else none
  | [] => none

/-- Leftmost match of the `S#E#` pattern. -/
def searchSE : List Char → Option (List Char × List Char)
  | [] => none
  | c :: rest =>
    match matchSEAt (c :: rest) with
    | some r => some r
    | none => searchSE rest

/-- `[xX](\d{1,2})` at the head of the list (the `x` pattern carries the
`i` flag). -/
def matchXTail : List Char → Option (List Char)
  | c :: rest =>
    if c = 'x' ∨ c = 'X' then (grabDigits12 rest).map (·.1) else none
  | [] => none

/-- `(\d{1,2})x(\d{1,2})` anchored at the head of the list. -/
def matchXAt : List Char → Option (List Char × List Char)
  | d1 :: d2 :: rest =>
    if d1.isDigit && d2.isDigit then
      match matchXTail rest with
      | some ep => some ([d1, d2], ep)
      | none =>
        match matchXTail (d2 :: rest) with
        | some ep => some ([d1], ep)
        | none => none
    else if d1.isDigit then
      match matchXTail (d2 :: rest) with
      | some ep => some ([d1], ep)
      | none => none
    else none
  | _ => none

/-- Leftmost match of the `#x#` pattern. -/
def searchX : List Char → Option (List Char × List Char)
  | [] => none
  | c :: rest =>
    match matchXAt (c :: rest) with
    | some r => some r
    | none => searchX rest

/-- The literal `pisode` followed by greedy `\s*` (the optional tail of
`[Ee](?:pisode\s*)?`). -/
def dropEpisodeWord : List Char → Option (List Char)
  | 'p' :: 'i' :: 's' :: 'o' :: 'd' :: 'e' :: rest => some (rest.dropWhile jsSpace)
  | _ => none

/-- `[Ee](?:pisode\s*)?(\d{1,2})` anchored at the head of the list: the
optional group is tried first, and skipped on failure. -/
def matchEpAt : List Char → Option (List Char)
  | c :: rest =>
    if c = 'E' ∨ c = 'e' then
      match dropEpisodeWord rest with
      | some rest2 =>
        match grabDigits12 rest2 with
        | some (ds, _) => some ds
        | none => (grabDigits12 rest).map (·.1)
      | none => (grabDigits12 rest).map (·.1)
    else none
  | [] => none

/-- Leftmost match of the `E#` / `Episode #` pattern. -/
def searchEp : List Char → Option (List Char)
  | [] => none
  | c :: rest =>
    match matchEpAt (c :: rest) with
    | some r => some r
    | none => searchEp rest

/-- `extractEpisodeIdFromFilename` from `srtParser.ts` (lines 162-187):
tries `S#E#` first, then `#x#`, then `E#`/`Episode #` (season defaulting to
01); matched numbers are zero-padded to two digits. -/
def extractEpisodeIdFromFilename (filename : List Char) : Option (List Char) :=
  match searchSE filename with
  | some (sd, ed) => some ('S' :: padStart 2 '0' sd ++ 'E' :: padStart 2 '0' ed)
  | none =>
    match searchX filename with
    | some (sd, ed) => some ('S' :: padStart 2 '0' sd ++ 'E' :: padStart 2 '0' ed)
    | none =>
      match searchEp filename with
      | some ed => some ('S' :: '0' :: '1' :: 'E' :: padStart 2 '0' ed)
      | none => none

/-- C8: the four documented resolutions, with the `S#E#` pattern taking
priority, then `#x#`, then `E#` (season defaulting to 01), and both numbers
zero-padded to two digits. -/
theorem episode_id_resolution :
    extractEpisodeIdFromFilename ("Show.S01E02.720p.mkv".toList)
      = some ("S01E02".toList) ∧
    extractEpisodeIdFromFilename ("Show.1x02.mkv".toList) = some ("S01E02".toList) ∧
    extractEpisodeIdFromFilename ("E02.srt".toList) = some ("S01E02".toList) ∧
    extractEpisodeIdFromFilename ("randomfile.mp4".toList) = none := by
  refine ⟨?_, ?_, ?_, ?_⟩ <;> decide

end SeasonRecap
